import Mathlib

/-!
Shallow embedding of `depthai_sdk/src/depthai_sdk/components/syncing.py`.

The embedded code is the message-synchronization core: the `NoSync`
synchronizer (`NoSync.__init__`, `NoSync.newMsg`), the delivery queue
created in `BaseSync.__init__` (`Queue(maxsize=30)`), and the consumer
poll `BaseSync.checkQueue`.

Modelling choices:
* Message payloads are opaque; they are modelled as natural numbers.
* A Python `dict` (insertion-ordered, distinct keys) is modelled as an
  association list whose new keys are appended at the end.
* A `newMsg` call that would raise (the `arr[0]` IndexError on an empty
  buffer slice) is modelled by `Option`: `none` is the raised exception.
* `Queue.put` blocks when the queue holds `maxsize` items instead of
  dropping; inside `SyncState` the queue is kept as the unbounded trace
  of emitted bundles, and the capacity/blocking behaviour of the
  hand-off queue itself is modelled separately by `qstep`/`qrun`
  (`none` models a producer blocked on a full queue).
-/

namespace Syncing

/-- Message payloads are opaque to the synchronizer; model them as `Nat`. -/
abbrev Msg := Nat

/-- One `newMsg(name, msg)` call: stream name and message. -/
abbrev Call := String × Msg

/-- The `ret` dict built by `NoSync.newMsg`, in dict insertion order. -/
abbrev Bundle := List (String × Msg)

/-- `self.msgs : Dict[str, List[dai.Buffer]]` as an insertion-ordered
association list. -/
abbrev MsgDict := List (String × List Msg)

/-- `name in self.msgs` (Python dict membership). -/
def containsKey (d : MsgDict) (k : String) : Bool :=
  d.any (fun p => p.1 == k)

/-- `self.msgs[name]` as an `Option` (dict lookup). -/
def lookupKey (d : MsgDict) (k : String) : Option (List Msg) :=
  (d.find? (fun p => p.1 == k)).map Prod.snd

/-- `self.msgs[name].append(msg)`: append `m` to the value stored at key
`k`, leaving the dict order unchanged. -/
def appendMsg (d : MsgDict) (k : String) (m : Msg) : MsgDict :=
  d.map (fun p => if p.1 == k then (p.1, p.2 ++ [m]) else p)

/-- The Python slice `arr[-1:]`: empty for an empty list, otherwise the
one-element list holding the last element. -/
def lastSlice (l : List Msg) : List Msg :=
  l.drop (l.length - 1)

/-- The bundle-building loop of `NoSync.newMsg`:
`for name, arr in self.msgs.items(): arr = arr[-1:]; ret[name] = arr[0]`.
`none` models the IndexError raised by `arr[0]` when some buffer is
empty (unreachable in actual runs, proved below). -/
def mkBundle : MsgDict → Option Bundle
  | [] => some []
  | p :: rest =>
      match (lastSlice p.2).head? with
      | some m => (mkBundle rest).map (fun b => (p.1, m) :: b)
      | none => none

/-- `[0 < len(arr) for _, arr in self.msgs.items()].count(True)`:
the number of dict entries whose buffer is non-empty. -/
def msgsAvailableCnt (d : MsgDict) : Nat :=
  (d.filter (fun p => 0 < p.2.length)).length

/-- The state of one `NoSync` object: `self.streams`, `self.msgs`, and
the contents of `self.queue` (bundles pushed and not yet polled,
oldest first). -/
structure SyncState where
  streams : List String
  msgs : MsgDict
  queue : List Bundle
deriving DecidableEq, Repr

/-- `NoSync.newMsg(self, name, msg)`.  Appends the message (creating the
dict slot on first use), recounts the non-empty buffers, and when the
count equals `len(self.streams)` builds the latest-message bundle and
pushes it.  Note `arr = arr[-1:]` in the source rebinds a loop-local
variable, so `self.msgs` itself is never pruned; the stored dict after
the call is the appended dict in every case. -/
def newMsg (s : SyncState) (name : String) (msg : Msg) : Option SyncState :=
  let msgs0 := if containsKey s.msgs name then s.msgs else s.msgs ++ [(name, [])]
  let msgs1 := appendMsg msgs0 name msg
  if s.streams.length = msgsAvailableCnt msgs1 then
    match mkBundle msgs1 with
    | some ret => some { s with msgs := msgs1, queue := s.queue ++ [ret] }
    | none => none
  else
    some { s with msgs := msgs1 }

/-- `NoSync.__init__(callback, streams)`: records the stream list; the
message dict and the delivery queue start empty. -/
def initState (streams : List String) : SyncState :=
  ⟨streams, [], []⟩

/-- Run a sequence of `newMsg` calls from a given state. -/
def runFrom : SyncState → List Call → Option SyncState
  | s, [] => some s
  | s, c :: rest => (newMsg s c.1 c.2).bind (fun s2 => runFrom s2 rest)

/-- Run a sequence of `newMsg` calls on a freshly constructed `NoSync`. -/
def runSeq (streams : List String) (calls : List Call) : Option SyncState :=
  runFrom (initState streams) calls

/-- Lookup in a bundle (the `ret` dict). -/
def lookupB (b : Bundle) (k : String) : Option Msg :=
  (b.find? (fun p => p.1 == k)).map Prod.snd

/-- The messages delivered to stream `st` by a call sequence, in order. -/
def sentTo (calls : List Call) (st : String) : List Msg :=
  (calls.filter (fun c => c.1 == st)).map Prod.snd

/-- `BaseSync.checkQueue(block=False)`: a non-blocking `queue.get`.
On an empty queue, `Empty` is caught and nothing happens; otherwise the
oldest bundle is removed and handed to the callback (the returned
`Option Bundle` is the argument of the single callback invocation, if
any; queued bundles are the `ret` dicts of `newMsg`, never `None`, so
the `is not None` guard always passes). -/
def checkQueue (s : SyncState) : SyncState × Option Bundle :=
  match s.queue with
  | [] => (s, none)
  | b :: rest => ({ s with queue := rest }, some b)

/-- `n` successive `checkQueue(block=False)` polls; returns the final
state and the list of bundles handed to the callback, in call order. -/
def checkQueueN : Nat → SyncState → SyncState × List Bundle
  | 0, s => (s, [])
  | n + 1, s =>
      let r := checkQueue s
      let r2 := checkQueueN n r.1
      (r2.1, r.2.toList ++ r2.2)

/-- `Queue(maxsize=30)` in `BaseSync.__init__`. -/
def queueCapacity : Nat := 30

/-- An operation on the delivery queue: a producer-side `put` from
`newMsg`, or a consumer-side non-blocking `get` from `checkQueue`. -/
inductive QOp where
  | push (b : Bundle)
  | poll
deriving DecidableEq, Repr

/-- Delivery-queue state: pending bundles (oldest first) and the
bundles already handed to the callback, in delivery order. -/
structure QState where
  q : List Bundle
  delivered : List Bundle
deriving DecidableEq, Repr

/-- One delivery-queue operation.  `put` appends when below capacity and
blocks (modelled as `none`) on a full queue; `poll` is `checkQueue`:
it removes the oldest bundle and delivers it, or does nothing when the
queue is empty. -/
def qstep (s : QState) : QOp → Option QState
  | .push b => if s.q.length < queueCapacity then some ⟨s.q ++ [b], s.delivered⟩ else none
  | .poll =>
      match s.q with
      | [] => some s
      | b :: rest => some ⟨rest, s.delivered ++ [b]⟩

/-- Run an interleaving of pushes and polls on the delivery queue. -/
def qrun : QState → List QOp → Option QState
  | s, [] => some s
  | s, op :: rest => (qstep s op).bind (fun s2 => qrun s2 rest)

/-- The bundles pushed by an operation sequence, in push order. -/
def pushedOf (ops : List QOp) : List Bundle :=
  ops.filterMap (fun op => match op with | .push b => some b | .poll => none)

/-- The key list of a message dict, in insertion order. -/
def keys (d : MsgDict) : List String := d.map Prod.fst

/-- Facts holding of a bundle `b` at the moment it was emitted, namely
right after the first `n` calls of `calls` were processed: the bundle
has one entry per non-empty buffer (hence `streams.length` entries with
distinct keys, all of them names seen so far), and maps each registered
stream to the last message sent to it so far. -/
structure EmittedAt (streams : List String) (calls : List Call) (n : Nat)
    (b : Bundle) : Prop where
  hblen : b.length = streams.length
  hbnd : (b.map Prod.fst).Nodup
  hbreg : ∀ k ∈ b.map Prod.fst, k ∈ streams
  hbseen : ∀ k ∈ b.map Prod.fst, k ∈ (calls.take n).map Prod.fst
  hbcontent : ∀ st ∈ streams, sentTo (calls.take n) st ≠ [] ∧
      lookupB b st = (sentTo (calls.take n) st).getLast?

/-- Invariant relating a `NoSync` state to the call sequence that
produced it, for runs whose calls all name registered streams: the
buffer of a stream holds exactly the messages sent to it (nothing is
ever pruned), dict keys are the distinct names seen so far, and every
queued bundle was correctly emitted at some earlier point. -/
structure GoodRun (streams : List String) (calls : List Call)
    (s : SyncState) : Prop where
  hstreams : s.streams = streams
  hlookup : ∀ st, lookupKey s.msgs st =
      if sentTo calls st = [] then none else some (sentTo calls st)
  hkeysNd : (keys s.msgs).Nodup
  hkeysSeen : ∀ k ∈ keys s.msgs, k ∈ calls.map Prod.fst
  hqueue : ∀ b ∈ s.queue, ∃ n, 0 < n ∧ n ≤ calls.length ∧
      EmittedAt streams calls n b

theorem sentTo_append_one (calls : List Call) (c : Call) (st : String) :
    sentTo (calls ++ [c]) st =
      sentTo calls st ++ (if c.1 = st then [c.2] else []) := by
  simp only [sentTo, List.filter_append, List.map_append]
  congr 1
  by_cases h : c.1 = st
  · simp [List.filter_cons, h]
  · simp [List.filter_cons, h]

theorem sentTo_eq_nil_iff (calls : List Call) (st : String) :
    sentTo calls st = [] ↔ st ∉ calls.map Prod.fst := by
  simp only [sentTo, List.map_eq_nil_iff, List.filter_eq_nil_iff, List.mem_map]
  constructor
  · rintro h ⟨c, hc, he⟩
    exact h c hc (beq_iff_eq.mpr he)
  · intro h c hc hb
    exact h ⟨c, hc, beq_iff_eq.mp hb⟩

theorem containsKey_iff (d : MsgDict) (k : String) :
    containsKey d k = true ↔ k ∈ keys d := by
  simp only [containsKey, List.any_eq_true, keys, List.mem_map]
  constructor
  · rintro ⟨p, hp, hb⟩
    exact ⟨p, hp, beq_iff_eq.mp hb⟩
  · rintro ⟨p, hp, he⟩
    exact ⟨p, hp, beq_iff_eq.mpr he⟩

theorem lookupKey_eq_none_iff (d : MsgDict) (k : String) :
    lookupKey d k = none ↔ k ∉ keys d := by
  simp only [lookupKey, Option.map_eq_none', List.find?_eq_none, keys,
    List.mem_map]
  constructor
  · rintro h ⟨p, hp, he⟩
    exact h p hp (beq_iff_eq.mpr he)
  · intro h p hp hb
    exact h ⟨p, hp, beq_iff_eq.mp hb⟩

theorem lookupKey_append_left (d e : MsgDict) (k : String) (h : k ∈ keys d) :
    lookupKey (d ++ e) k = lookupKey d k := by
  unfold lookupKey
  rw [List.find?_append]
  obtain ⟨p, hp, he⟩ := List.mem_map.mp h
  have hsome : (List.find? (fun q => q.1 == k) d).isSome := by
    rw [List.find?_isSome]
    exact ⟨p, hp, beq_iff_eq.mpr he⟩
  obtain ⟨v, hv⟩ := Option.isSome_iff_exists.mp hsome
  rw [hv, Option.or_some]

theorem lookupKey_append_right (d e : MsgDict) (k : String) (h : k ∉ keys d) :
    lookupKey (d ++ e) k = lookupKey e k := by
  unfold lookupKey
  rw [List.find?_append]
  have hnone : List.find? (fun q => q.1 == k) d = none := by
    rw [List.find?_eq_none]
    intro p hp hb
    exact absurd (List.mem_map.mpr ⟨p, hp, beq_iff_eq.mp hb⟩) h
  rw [hnone, Option.none_or]

theorem keys_appendMsg (d : MsgDict) (k : String) (m : Msg) :
    keys (appendMsg d k m) = keys d := by
  induction d with
  | nil => rfl
  | cons p rest ih =>
    have hhead : (if (p.1 == k) = true then (p.1, p.2 ++ [m]) else p).1 = p.1 := by
      split <;> rfl
    simp only [appendMsg, keys, List.map_cons] at ih ⊢
    rw [hhead]
    exact congrArg (List.cons p.1) ih

theorem lookupKey_cons (q : String × List Msg) (d : MsgDict) (st : String) :
    lookupKey (q :: d) st =
      if (q.1 == st) = true then some q.2 else lookupKey d st := by
  simp only [lookupKey, List.find?_cons]
  cases h : (q.1 == st) <;> simp [h]

theorem appendMsg_cons (p : String × List Msg) (rest : MsgDict) (k : String)
    (m : Msg) :
    appendMsg (p :: rest) k m =
      (if (p.1 == k) = true then (p.1, p.2 ++ [m]) else p) :: appendMsg rest k m :=
  rfl

theorem keys_append_one (d : MsgDict) (k : String) (v : List Msg) :
    keys (d ++ [(k, v)]) = keys d ++ [k] := by
  simp [keys]

theorem lookupKey_appendMsg (d : MsgDict) (k0 : String) (m : Msg)
    (st : String) :
    lookupKey (appendMsg d k0 m) st =
      if st = k0 then (lookupKey d st).map (fun v => v ++ [m])
      else lookupKey d st := by
  induction d with
  | nil =>
    simp only [appendMsg, List.map_nil, lookupKey, List.find?_nil,
      Option.map_none']
    split <;> rfl
  | cons p rest ih =>
    by_cases hst : st = k0
    · by_cases hp : p.1 = st
      · have hb1 : (p.1 == st) = true := beq_iff_eq.mpr hp
        have hb2 : (p.1 == k0) = true := beq_iff_eq.mpr (hp.trans hst)
        simp [appendMsg_cons, lookupKey_cons, hb1, hb2, hst]
      · have hb1 : (p.1 == st) = false := by simpa using hp
        have hb2 : (p.1 == k0) = false := by
          simp only [beq_eq_false_iff_ne, ne_eq]
          intro he
          exact hp (he.trans hst.symm)
        simpa [appendMsg_cons, lookupKey_cons, hb1, hb2] using ih
    · by_cases hp : p.1 = k0
      · have hb2 : (p.1 == k0) = true := beq_iff_eq.mpr hp
        have hb1 : (p.1 == st) = false := by
          simp only [beq_eq_false_iff_ne, ne_eq]
          intro he
          exact hst (he.symm.trans hp)
        simpa [appendMsg_cons, lookupKey_cons, hb1, hb2] using ih
      · have hb2 : (p.1 == k0) = false := by simpa using hp
        by_cases hps : p.1 = st
        · have hb1 : (p.1 == st) = true := beq_iff_eq.mpr hps
          simp [appendMsg_cons, lookupKey_cons, hb1, hb2, hst]
        · have hb1 : (p.1 == st) = false := by simpa using hps
          simpa [appendMsg_cons, lookupKey_cons, hb1, hb2] using ih

theorem lookupKey_of_mem (d : MsgDict) (p : String × List Msg)
    (hnd : (keys d).Nodup) (hp : p ∈ d) : lookupKey d p.1 = some p.2 := by
  induction d with
  | nil => cases hp
  | cons q rest ih =>
    rcases List.mem_cons.mp hp with he | hm
    · subst he
      simp [lookupKey, List.find?_cons]
    · have hq : q.1 ∉ keys rest := (List.nodup_cons.mp hnd).1
      have hne : (q.1 == p.1) = false := by
        simp only [beq_eq_false_iff_ne, ne_eq]
        intro he
        exact hq (he ▸ List.mem_map.mpr ⟨p, hm, rfl⟩)
      simp only [lookupKey, List.find?_cons, hne]
      exact ih (List.nodup_cons.mp hnd).2 hm

theorem lastSlice_head (l : List Msg) : (lastSlice l).head? = l.getLast? := by
  induction l with
  | nil => rfl
  | cons a t ih =>
    cases t with
    | nil => rfl
    | cons b t2 =>
      have h1 : lastSlice (a :: b :: t2) = lastSlice (b :: t2) := by
        simp [lastSlice, List.drop_succ_cons]
      rw [h1, ih, List.getLast?_cons_cons]

theorem getLast_isSome_of_ne_nil (l : List Msg) (h : l ≠ []) :
    ∃ m, l.getLast? = some m := by
  have := List.getLast?_isSome.mpr h
  exact Option.isSome_iff_exists.mp this

theorem mkBundle_some (d : MsgDict) (hne : ∀ p ∈ d, p.2 ≠ []) :
    ∃ b, mkBundle d = some b ∧ b.map Prod.fst = keys d ∧
      ∀ st, lookupB b st = (lookupKey d st).bind List.getLast? := by
  induction d with
  | nil => exact ⟨[], rfl, rfl, fun st => rfl⟩
  | cons p rest ih =>
    obtain ⟨b, hb, hk, hl⟩ := ih (fun q hq => hne q (List.mem_cons_of_mem p hq))
    obtain ⟨m, hm⟩ := getLast_isSome_of_ne_nil p.2 (hne p (List.mem_cons_self p rest))
    refine ⟨(p.1, m) :: b, ?_, ?_, ?_⟩
    · simp [mkBundle, lastSlice_head, hm, hb]
    · simp [keys, hk]
    · intro st
      by_cases h : p.1 = st
      · have hb1 : (p.1 == st) = true := beq_iff_eq.mpr h
        simp [lookupB, lookupKey, List.find?_cons, hb1, hm]
      · have hb1 : (p.1 == st) = false := by simpa using h
        simpa [lookupB, lookupKey, List.find?_cons, hb1] using hl st

theorem mem_keys_of_lookup_some (d : MsgDict) (k : String) (v : List Msg)
    (h : lookupKey d k = some v) : k ∈ keys d := by
  by_contra hn
  rw [(lookupKey_eq_none_iff d k).mpr hn] at h
  cases h

theorem length_eq_of_nodup_subsets (l1 l2 : List String) (h1 : l1.Nodup)
    (h2 : l2.Nodup) (h12 : ∀ x ∈ l1, x ∈ l2) (h21 : ∀ x ∈ l2, x ∈ l1) :
    l1.length = l2.length := by
  have e : l1.toFinset = l2.toFinset := by
    apply Finset.Subset.antisymm
    · intro x hx
      exact List.mem_toFinset.mpr (h12 x (List.mem_toFinset.mp hx))
    · intro x hx
      exact List.mem_toFinset.mpr (h21 x (List.mem_toFinset.mp hx))
  calc l1.length = l1.toFinset.card := (List.toFinset_card_of_nodup h1).symm
    _ = l2.toFinset.card := by rw [e]
    _ = l2.length := List.toFinset_card_of_nodup h2

theorem mem_of_nodup_subset_length (l1 l2 : List String) (h1 : l1.Nodup)
    (h12 : ∀ x ∈ l1, x ∈ l2) (hlen : l2.length ≤ l1.length) :
    ∀ x ∈ l2, x ∈ l1 := by
  have hsub : l1.toFinset ⊆ l2.toFinset := by
    intro x hx
    exact List.mem_toFinset.mpr (h12 x (List.mem_toFinset.mp hx))
  have hcard : l2.toFinset.card ≤ l1.toFinset.card := by
    calc l2.toFinset.card ≤ l2.length := List.toFinset_card_le l2
      _ ≤ l1.length := hlen
      _ = l1.toFinset.card := (List.toFinset_card_of_nodup h1).symm
  have e := Finset.eq_of_subset_of_card_le hsub hcard
  intro x hx
  exact List.mem_toFinset.mp (by rw [e]; exact List.mem_toFinset.mpr hx)

theorem msgsAvailableCnt_eq_length (d : MsgDict) (h : ∀ p ∈ d, p.2 ≠ []) :
    msgsAvailableCnt d = d.length := by
  unfold msgsAvailableCnt
  rw [List.filter_eq_self.mpr]
  intro p hp
  simpa [List.length_pos] using h p hp

theorem lookupKey_newDict (d : MsgDict) (name : String) (msg : Msg)
    (st : String) :
    lookupKey (appendMsg (if containsKey d name then d
        else d ++ [(name, [])]) name msg) st =
      if st = name then some ((lookupKey d name).getD [] ++ [msg])
      else lookupKey d st := by
  rw [lookupKey_appendMsg]
  by_cases hst : st = name
  · rw [if_pos hst, if_pos hst]
    subst hst
    by_cases hc : st ∈ keys d
    · rw [if_pos ((containsKey_iff d st).mpr hc)]
      obtain ⟨v, hv⟩ : ∃ v, lookupKey d st = some v := by
        cases hl : lookupKey d st with
        | none =>
          exact absurd ((lookupKey_eq_none_iff d st).mp hl) (not_not_intro hc)
        | some v => exact ⟨v, rfl⟩
      rw [hv]
      simp
    · rw [if_neg (fun h => hc ((containsKey_iff d st).mp h))]
      rw [lookupKey_append_right d [(st, [])] st hc]
      rw [(lookupKey_eq_none_iff d st).mpr hc]
      simp [lookupKey_cons]
  · rw [if_neg hst, if_neg hst]
    by_cases hcst : st ∈ keys d
    · by_cases hc : name ∈ keys d
      · rw [if_pos ((containsKey_iff d name).mpr hc)]
      · rw [if_neg (fun h => hc ((containsKey_iff d name).mp h))]
        exact lookupKey_append_left d [(name, [])] st hcst
    · by_cases hc : name ∈ keys d
      · rw [if_pos ((containsKey_iff d name).mpr hc)]
      · rw [if_neg (fun h => hc ((containsKey_iff d name).mp h))]
        rw [lookupKey_append_right d [(name, [])] st hcst]
        rw [(lookupKey_eq_none_iff d st).mpr hcst]
        have hb : (name == st) = false := by
          simp only [beq_eq_false_iff_ne, ne_eq]
          exact fun he => hst he.symm
        simp [lookupKey_cons, hb, lookupKey]

theorem keys_newDict (d : MsgDict) (name : String) (msg : Msg) :
    keys (appendMsg (if containsKey d name then d
        else d ++ [(name, [])]) name msg) =
      if name ∈ keys d then keys d else keys d ++ [name] := by
  rw [keys_appendMsg]
  by_cases hc : name ∈ keys d
  · rw [if_pos ((containsKey_iff d name).mpr hc), if_pos hc]
  · rw [if_neg (fun h => hc ((containsKey_iff d name).mp h)), if_neg hc,
      keys_append_one]

theorem emittedAt_extend (streams : List String) (calls : List Call)
    (c : Call) (n : Nat) (b : Bundle) (hnle : n ≤ calls.length)
    (hem : EmittedAt streams calls n b) :
    EmittedAt streams (calls ++ [c]) n b := by
  have ht : (calls ++ [c]).take n = calls.take n :=
    List.take_append_of_le_length hnle
  refine ⟨hem.hblen, hem.hbnd, hem.hbreg, ?_, ?_⟩
  · rw [ht]
    exact hem.hbseen
  · rw [ht]
    exact hem.hbcontent

theorem goodRun_init (streams : List String) :
    GoodRun streams [] (initState streams) := by
  refine ⟨rfl, ?_, List.nodup_nil, ?_, ?_⟩
  · intro st
    simp [initState, lookupKey, sentTo]
  · intro k hk
    cases hk
  · intro b hb
    cases hb

theorem runFrom_append (s : SyncState) (l1 l2 : List Call) :
    runFrom s (l1 ++ l2) = (runFrom s l1).bind (fun s2 => runFrom s2 l2) := by
  induction l1 generalizing s with
  | nil => simp [runFrom]
  | cons c rest ih =>
    simp only [List.cons_append, runFrom]
    cases newMsg s c.1 c.2 with
    | none => rfl
    | some s2 => simp [Option.some_bind, ih s2]

theorem runSeq_append_one (streams : List String) (calls : List Call)
    (c : Call) :
    runSeq streams (calls ++ [c]) =
      (runSeq streams calls).bind (fun s => newMsg s c.1 c.2) := by
  unfold runSeq
  rw [runFrom_append]
  congr 1
  funext s2
  show runFrom s2 [c] = newMsg s2 c.1 c.2
  simp only [runFrom]
  cases newMsg s2 c.1 c.2 <;> rfl

theorem newMsg_goodRun (streams : List String) (calls : List Call)
    (s : SyncState) (name : String) (msg : Msg)
    (hgr : GoodRun streams calls s) (hname : name ∈ streams)
    (hreg : ∀ c ∈ calls, c.1 ∈ streams) :
    ∃ s2, newMsg s name msg = some s2 ∧
      GoodRun streams (calls ++ [(name, msg)]) s2 ∧
      (s2.queue = s.queue ∨ ∃ b, s2.queue = s.queue ++ [b]) ∧
      (streams.Nodup → (∀ st ∈ streams, st = name ∨ st ∈ keys s.msgs) →
        ∃ b, s2.queue = s.queue ++ [b]) := by
  set msgs1 := appendMsg (if containsKey s.msgs name then s.msgs
      else s.msgs ++ [(name, [])]) name msg with hm1
  have hreg2 : ∀ k ∈ (calls ++ [(name, msg)]).map Prod.fst, k ∈ streams := by
    intro k hk
    obtain ⟨c, hc, he⟩ := List.mem_map.mp hk
    rcases List.mem_append.mp hc with h1 | h2
    · exact he ▸ hreg c h1
    · rw [List.mem_singleton] at h2
      subst h2
      exact he ▸ hname
  have hlook1 : ∀ st, lookupKey msgs1 st =
      if sentTo (calls ++ [(name, msg)]) st = [] then none
      else some (sentTo (calls ++ [(name, msg)]) st) := by
    intro st
    rw [hm1, lookupKey_newDict]
    by_cases hst : st = name
    · subst hst
      rw [if_pos rfl]
      have hsent : sentTo (calls ++ [(st, msg)]) st = sentTo calls st ++ [msg] := by
        rw [sentTo_append_one]
        simp
      rw [hsent, if_neg (by simp)]
      rw [hgr.hlookup st]
      by_cases hn : sentTo calls st = []
      · rw [if_pos hn, hn]
        rfl
      · rw [if_neg hn]
        rfl
    · rw [if_neg hst]
      have hsent : sentTo (calls ++ [(name, msg)]) st = sentTo calls st := by
        rw [sentTo_append_one, if_neg (fun h => hst h.symm), List.append_nil]
      rw [hsent, hgr.hlookup st]
  have hkeys1 : keys msgs1 = if name ∈ keys s.msgs then keys s.msgs
      else keys s.msgs ++ [name] := by
    rw [hm1, keys_newDict]
  have hkeysNd1 : (keys msgs1).Nodup := by
    rw [hkeys1]
    by_cases hc : name ∈ keys s.msgs
    · rw [if_pos hc]
      exact hgr.hkeysNd
    · rw [if_neg hc, List.nodup_append]
      refine ⟨hgr.hkeysNd, List.nodup_singleton name, ?_⟩
      intro x hx hx2
      rw [List.mem_singleton] at hx2
      exact hc (hx2 ▸ hx)
  have hkeysSeen1 : ∀ k ∈ keys msgs1, k ∈ (calls ++ [(name, msg)]).map Prod.fst := by
    intro k hk
    rw [List.map_append]
    rw [hkeys1] at hk
    by_cases hc : name ∈ keys s.msgs
    · rw [if_pos hc] at hk
      exact List.mem_append_left _ (hgr.hkeysSeen k hk)
    · rw [if_neg hc] at hk
      rcases List.mem_append.mp hk with h1 | h2
      · exact List.mem_append_left _ (hgr.hkeysSeen k h1)
      · rw [List.mem_singleton] at h2
        subst h2
        exact List.mem_append_right _ (by simp)
  have hname_keys1 : name ∈ keys msgs1 := by
    rw [hkeys1]
    by_cases hc : name ∈ keys s.msgs
    · rw [if_pos hc]
      exact hc
    · rw [if_neg hc]
      exact List.mem_append_right _ (by simp)
  have hold_keys1 : ∀ k ∈ keys s.msgs, k ∈ keys msgs1 := by
    intro k hk
    rw [hkeys1]
    by_cases hc : name ∈ keys s.msgs
    · rw [if_pos hc]
      exact hk
    · rw [if_neg hc]
      exact List.mem_append_left _ hk
  have hvals1 : ∀ p ∈ msgs1, p.2 ≠ [] := by
    intro p hp
    have hl := lookupKey_of_mem msgs1 p hkeysNd1 hp
    rw [hlook1 p.1] at hl
    split at hl
    · cases hl
    · next hne =>
      injection hl with hv
      rw [← hv]
      exact hne
  have hcnt : msgsAvailableCnt msgs1 = (keys msgs1).length := by
    rw [msgsAvailableCnt_eq_length msgs1 hvals1]
    simp [keys]
  obtain ⟨bb, hb0, hb0k, hb0l⟩ := mkBundle_some msgs1 hvals1
  have hkeys_sub : ∀ k ∈ keys msgs1, k ∈ streams := by
    intro k hk
    exact hreg2 k (hkeysSeen1 k hk)
  have hnm : newMsg s name msg =
      if s.streams.length = msgsAvailableCnt msgs1 then
        match mkBundle msgs1 with
        | some ret => some { s with msgs := msgs1, queue := s.queue ++ [ret] }
        | none => none
      else some { s with msgs := msgs1 } := rfl
  by_cases hcond : s.streams.length = msgsAvailableCnt msgs1
  · refine ⟨{ s with msgs := msgs1, queue := s.queue ++ [bb] }, ?_, ?_, ?_, ?_⟩
    · rw [hnm, if_pos hcond, hb0]
    · have hlen_keys : streams.length = (keys msgs1).length := by
        rw [← hcnt, ← hcond, hgr.hstreams]
      refine ⟨hgr.hstreams, hlook1, hkeysNd1, hkeysSeen1, ?_⟩
      intro b hb
      rcases List.mem_append.mp hb with hbold | hbnew
      · obtain ⟨n, hn0, hnle, hem⟩ := hgr.hqueue b hbold
        exact ⟨n, hn0, le_trans hnle (by simp),
          emittedAt_extend streams calls (name, msg) n b hnle hem⟩
      · rw [List.mem_singleton] at hbnew
        rw [hbnew]
        refine ⟨calls.length + 1, Nat.succ_pos _, by simp, ?_⟩
        have htake : (calls ++ [(name, msg)]).take (calls.length + 1) =
            calls ++ [(name, msg)] := by
          rw [show calls.length + 1 = (calls ++ [(name, msg)]).length by simp]
          exact List.take_length _
        have hmem_keys : ∀ st ∈ streams, st ∈ keys msgs1 :=
          mem_of_nodup_subset_length (keys msgs1) streams hkeysNd1 hkeys_sub
            (le_of_eq hlen_keys)
        have hcontent : ∀ st ∈ streams,
            sentTo (calls ++ [(name, msg)]) st ≠ [] ∧
            lookupB bb st = (sentTo (calls ++ [(name, msg)]) st).getLast? := by
          intro st hst
          have hk := hmem_keys st hst
          have hl := hlook1 st
          by_cases hn : sentTo (calls ++ [(name, msg)]) st = []
          · rw [if_pos hn] at hl
            exact absurd ((lookupKey_eq_none_iff msgs1 st).mp hl) (not_not_intro hk)
          · rw [if_neg hn] at hl
            refine ⟨hn, ?_⟩
            rw [hb0l st, hl]
            rfl
        refine ⟨?_, ?_, ?_, ?_, ?_⟩
        · rw [← hb0k] at hlen_keys
          rw [List.length_map] at hlen_keys
          exact hlen_keys.symm
        · rw [hb0k]
          exact hkeysNd1
        · intro k hk
          rw [hb0k] at hk
          exact hkeys_sub k hk
        · intro k hk
          rw [hb0k] at hk
          rw [htake]
          exact hkeysSeen1 k hk
        · intro st hst
          rw [htake]
          exact hcontent st hst
    · exact Or.inr ⟨bb, rfl⟩
    · intro _ _
      exact ⟨bb, rfl⟩
  · refine ⟨{ s with msgs := msgs1 }, ?_, ?_, Or.inl rfl, ?_⟩
    · rw [hnm, if_neg hcond]
    · refine ⟨hgr.hstreams, hlook1, hkeysNd1, hkeysSeen1, ?_⟩
      intro b hb
      obtain ⟨n, hn0, hnle, hem⟩ := hgr.hqueue b hb
      exact ⟨n, hn0, le_trans hnle (by simp),
        emittedAt_extend streams calls (name, msg) n b hnle hem⟩
    · intro hnd hsub
      exfalso
      apply hcond
      rw [hcnt, hgr.hstreams]
      apply length_eq_of_nodup_subsets streams (keys msgs1) hnd hkeysNd1
      · intro st hst
        rcases hsub st hst with he | hm
        · exact he ▸ hname_keys1
        · exact hold_keys1 st hm
      · exact hkeys_sub

theorem goodRun_runSeq (streams : List String) (calls : List Call)
    (hreg : ∀ c ∈ calls, c.1 ∈ streams) :
    ∃ s, runSeq streams calls = some s ∧ GoodRun streams calls s := by
  induction calls using List.reverseRecOn with
  | nil => exact ⟨initState streams, rfl, goodRun_init streams⟩
  | append_singleton rest c ih =>
    obtain ⟨s, hs, hgr⟩ := ih (fun d hd => hreg d (List.mem_append_left _ hd))
    obtain ⟨s2, hnm, hgr2, _, _⟩ := newMsg_goodRun streams rest s c.1 c.2 hgr
      (hreg c (List.mem_append_right _ (List.mem_singleton_self c)))
      (fun d hd => hreg d (List.mem_append_left _ hd))
    refine ⟨s2, ?_, hgr2⟩
    rw [runSeq_append_one, hs, Option.some_bind, hnm]

theorem queue_ne_nil_of_cover (streams : List String) (calls : List Call)
    (hnd : streams.Nodup) (hne : streams ≠ [])
    (hreg : ∀ c ∈ calls, c.1 ∈ streams)
    (hcov : ∀ st ∈ streams, st ∈ calls.map Prod.fst) :
    ∀ s, runSeq streams calls = some s → s.queue ≠ [] := by
  intro s hs
  rcases List.eq_nil_or_concat calls with rfl | ⟨rest, c, rfl⟩
  · obtain ⟨st, hst⟩ := List.exists_mem_of_ne_nil streams hne
    exact absurd (hcov st hst) (by simp)
  · rw [List.concat_eq_append] at hs hreg hcov
    obtain ⟨sp, hsp, hgr⟩ := goodRun_runSeq streams rest
      (fun d hd => hreg d (List.mem_append_left _ hd))
    obtain ⟨s2, hnm, _, _, hemit⟩ := newMsg_goodRun streams rest sp c.1 c.2 hgr
      (hreg c (List.mem_append_right _ (List.mem_singleton_self c)))
      (fun d hd => hreg d (List.mem_append_left _ hd))
    rw [runSeq_append_one, hsp, Option.some_bind, hnm] at hs
    have hs2 : s2 = s := Option.some.inj hs
    have hsub : ∀ st ∈ streams, st = c.1 ∨ st ∈ keys sp.msgs := by
      intro st hst
      have hmm := hcov st hst
      rw [List.map_append] at hmm
      rcases List.mem_append.mp hmm with h1 | h2
      · right
        have hsnil : sentTo rest st ≠ [] := by
          rw [ne_eq, sentTo_eq_nil_iff]
          exact not_not_intro h1
        have hl := hgr.hlookup st
        rw [if_neg hsnil] at hl
        exact mem_keys_of_lookup_some sp.msgs st _ hl
      · left
        have h3 : st ∈ [c.1] := by simpa using h2
        simpa using h3
    obtain ⟨b, hbq⟩ := hemit hnd hsub
    rw [← hs2, hbq]
    simp

/-- Claim C1 (status: code bug in the source).  Registered streams
`color` and `depth`; after `newMsg(color, 10)`, `newMsg(color, 11)`,
`newMsg(depth, 12)` the bundle `{color: 11, depth: 12}` is emitted, but
the buffer for `color` still holds `[10, 11]`: the message older than
the bundle snapshot is NOT removed, because `arr = arr[-1:]` rebinds a
local variable and never prunes `self.msgs`, contradicting the source's
own comments and the spec's pruning requirement. -/
theorem noSync_c1_no_pruning :
    runSeq ["color", "depth"] [("color", 10), ("color", 11), ("depth", 12)] =
      some ⟨["color", "depth"],
            [("color", [10, 11]), ("depth", [12])],
            [[("color", 11), ("depth", 12)]]⟩ := by
  decide

/-- Claim C2, counterexample.  With registered streams `color` and
`depth`, the calls `newMsg(bogus, 7)`, `newMsg(color, 1)` emit a bundle
even though registered stream `depth` has zero pending messages, and
the bundle contains the unregistered stream `bogus` while missing
`depth`: the readiness test counts all dict entries, registered or not. -/
theorem noSync_c2_counterexample :
    runSeq ["color", "depth"] [("bogus", 7), ("color", 1)] =
      some ⟨["color", "depth"],
            [("bogus", [7]), ("color", [1])],
            [[("bogus", 7), ("color", 1)]]⟩ := by
  decide

/-- Claim C3, counterexample.  With registered streams `color` and
`depth`, the calls `newMsg(bogus, 9)`, `newMsg(color, 1)`,
`newMsg(depth, 2)` cover every registered stream, yet the only emitted
bundle is `{bogus: 9, color: 1}`, which does not contain one message
per registered stream (no `depth` entry), and no further bundle is
emitted. -/
theorem noSync_c3_counterexample :
    runSeq ["color", "depth"] [("bogus", 9), ("color", 1), ("depth", 2)] =
      some ⟨["color", "depth"],
            [("bogus", [9]), ("color", [1]), ("depth", [2])],
            [[("bogus", 9), ("color", 1)]]⟩ := by
  decide

/-- Claim C4 (confirmed).  Registered streams `color` and `depth`,
calls `newMsg(color, 1)`, `newMsg(color, 2)`, `newMsg(depth, 3)`:
exactly one bundle `{color: 2, depth: 3}` is emitted, and draining the
queue yields that one bundle on the first poll followed by empty
results (three polls deliver exactly that one bundle). -/
theorem noSync_c4_scenario :
    runSeq ["color", "depth"] [("color", 1), ("color", 2), ("depth", 3)] =
      some ⟨["color", "depth"],
            [("color", [1, 2]), ("depth", [3])],
            [[("color", 2), ("depth", 3)]]⟩ ∧
    checkQueueN 3 ⟨["color", "depth"],
                   [("color", [1, 2]), ("depth", [3])],
                   [[("color", 2), ("depth", 3)]]⟩ =
      (⟨["color", "depth"], [("color", [1, 2]), ("depth", [3])], []⟩,
       [[("color", 2), ("depth", 3)]]) := by
  constructor
  · decide
  · decide

/-- Claim C6, counterexample.  A `NoSync` constructed with registered
stream list `["color"]` has no entry at all for `color` in its message
dict: the dict starts empty and slots are only created lazily by
`newMsg`, so the buffer does not have an (empty) entry for every
registered stream. -/
theorem noSync_c6_counterexample :
    lookupKey (initState ["color"]).msgs "color" = none := by
  decide

/-- Claim C2, amended (the claim as stated fails for unregistered
stream names; see the counterexample).  For every sequence of `newMsg`
calls in which every call names a registered stream, the run never
raises, and every bundle in the delivery queue maps each registered
stream (and only registered streams) to exactly one message, and was
emitted at a point (after the first `n` calls, `n` positive) at which
every registered stream had at least one pending message in its buffer
— so no bundle is ever emitted while some registered stream has zero
pending messages. -/
theorem noSync_c2_registered (streams : List String) (calls : List Call)
    (hreg : ∀ c ∈ calls, c.1 ∈ streams) :
    ∃ s, runSeq streams calls = some s ∧
      ∀ b ∈ s.queue,
        (∀ st ∈ streams, ∃ m, lookupB b st = some m) ∧
        (∀ k ∈ b.map Prod.fst, k ∈ streams) ∧
        (b.map Prod.fst).Nodup ∧
        ∃ n, 0 < n ∧ n ≤ calls.length ∧
          ∀ st ∈ streams, sentTo (calls.take n) st ≠ [] := by
  obtain ⟨s, hs, hgr⟩ := goodRun_runSeq streams calls hreg
  refine ⟨s, hs, ?_⟩
  intro b hb
  obtain ⟨n, hn0, hnle, hem⟩ := hgr.hqueue b hb
  refine ⟨?_, hem.hbreg, hem.hbnd,
    ⟨n, hn0, hnle, fun st hst => (hem.hbcontent st hst).1⟩⟩
  intro st hst
  obtain ⟨hsn, hlb⟩ := hem.hbcontent st hst
  obtain ⟨m, hm⟩ := getLast_isSome_of_ne_nil _ hsn
  exact ⟨m, by rw [hlb, hm]⟩

/-- Witness for the amended claim C2 at a concrete input. -/
theorem noSync_c2_registered_witness :
    ∃ s, runSeq ["a"] [("a", 5)] = some s ∧
      ∀ b ∈ s.queue,
        (∀ st ∈ ["a"], ∃ m, lookupB b st = some m) ∧
        (∀ k ∈ b.map Prod.fst, k ∈ ["a"]) ∧
        (b.map Prod.fst).Nodup ∧
        ∃ n, 0 < n ∧ n ≤ ([("a", 5)] : List Call).length ∧
          ∀ st ∈ ["a"], sentTo (([("a", 5)] : List Call).take n) st ≠ [] :=
  noSync_c2_registered ["a"] [("a", 5)] (by decide)

/-- Claim C3, amended (the claim as stated fails for unregistered
stream names; see the counterexample).  For registered stream names
that are distinct and non-empty, and for every finite sequence of
`newMsg` calls that names only registered streams and covers every
registered stream at least once, at least one bundle is emitted, and
every emitted bundle maps each registered stream, with distinct keys
drawn from the registered streams, to the most recently appended
message for that stream at the moment of its emission. -/
theorem noSync_c3_registered (streams : List String) (calls : List Call)
    (hnd : streams.Nodup) (hne : streams ≠ [])
    (hreg : ∀ c ∈ calls, c.1 ∈ streams)
    (hcov : ∀ st ∈ streams, st ∈ calls.map Prod.fst) :
    ∃ s, runSeq streams calls = some s ∧ s.queue ≠ [] ∧
      ∀ b ∈ s.queue, ∃ n, 0 < n ∧ n ≤ calls.length ∧
        (b.map Prod.fst).Nodup ∧ (∀ k ∈ b.map Prod.fst, k ∈ streams) ∧
        ∀ st ∈ streams, sentTo (calls.take n) st ≠ [] ∧
          lookupB b st = (sentTo (calls.take n) st).getLast? := by
  obtain ⟨s, hs, hgr⟩ := goodRun_runSeq streams calls hreg
  refine ⟨s, hs, queue_ne_nil_of_cover streams calls hnd hne hreg hcov s hs, ?_⟩
  intro b hb
  obtain ⟨n, hn0, hnle, hem⟩ := hgr.hqueue b hb
  exact ⟨n, hn0, hnle, hem.hbnd, hem.hbreg, hem.hbcontent⟩

/-- Witness for the amended claim C3 at a concrete input. -/
theorem noSync_c3_registered_witness :
    ∃ s, runSeq ["a", "b"] [("a", 1), ("b", 2)] = some s ∧ s.queue ≠ [] ∧
      ∀ b ∈ s.queue, ∃ n, 0 < n ∧
        n ≤ ([("a", 1), ("b", 2)] : List Call).length ∧
        (b.map Prod.fst).Nodup ∧ (∀ k ∈ b.map Prod.fst, k ∈ ["a", "b"]) ∧
        ∀ st ∈ ["a", "b"],
          sentTo (([("a", 1), ("b", 2)] : List Call).take n) st ≠ [] ∧
          lookupB b st =
            (sentTo (([("a", 1), ("b", 2)] : List Call).take n) st).getLast? :=
  noSync_c3_registered ["a", "b"] [("a", 1), ("b", 2)] (by decide) (by decide)
    (by decide) (by decide)

/-- Claim C5 (confirmed).  With three registered streams of which only
two ever send messages, no bundle is ever emitted: for every call
sequence whose names all lie in two of the three registered streams,
the delivery queue is empty at the end of the run (and hence, applying
this to every prefix, stays empty indefinitely). -/
theorem noSync_c5_two_of_three (streams : List String) (a b : String)
    (calls : List Call) (hlen : streams.length = 3)
    (ha : a ∈ streams) (hb : b ∈ streams)
    (hreg : ∀ c ∈ calls, c.1 = a ∨ c.1 = b) :
    ∃ s, runSeq streams calls = some s ∧ s.queue = [] := by
  have hreg2 : ∀ c ∈ calls, c.1 ∈ streams := by
    intro c hc
    rcases hreg c hc with h | h
    · exact h ▸ ha
    · exact h ▸ hb
  obtain ⟨s, hs, hgr⟩ := goodRun_runSeq streams calls hreg2
  refine ⟨s, hs, ?_⟩
  by_contra hq
  obtain ⟨bdl, hbdl⟩ := List.exists_mem_of_ne_nil s.queue hq
  obtain ⟨n, _, _, hem⟩ := hgr.hqueue bdl hbdl
  have hkeys_ab : ∀ k ∈ bdl.map Prod.fst, k = a ∨ k = b := by
    intro k hk
    obtain ⟨c, hc, he⟩ := List.mem_map.mp (hem.hbseen k hk)
    rcases hreg c (List.mem_of_mem_take hc) with h | h
    · exact Or.inl (he ▸ h)
    · exact Or.inr (he ▸ h)
  have hsub : (bdl.map Prod.fst).toFinset ⊆ ({a, b} : Finset String) := by
    intro x hx
    rcases hkeys_ab x (List.mem_toFinset.mp hx) with h | h
    · simp [h]
    · simp [h]
  have h3 : (bdl.map Prod.fst).toFinset.card = 3 := by
    rw [List.toFinset_card_of_nodup hem.hbnd, List.length_map, hem.hblen, hlen]
  have h2 : ({a, b} : Finset String).card ≤ 2 := by
    apply le_trans (Finset.card_insert_le a {b})
    simp
  have hle := Finset.card_le_card hsub
  omega

/-- Witness for claim C5 at a concrete input. -/
theorem noSync_c5_witness :
    ∃ s, runSeq ["x", "y", "z"] [("x", 1), ("y", 2), ("x", 3)] = some s ∧
      s.queue = [] :=
  noSync_c5_two_of_three ["x", "y", "z"] "x" "y" [("x", 1), ("y", 2), ("x", 3)]
    rfl (by decide) (by decide) (by decide)

/-- Claim C9 (confirmed, implicit claim).  Once a run over registered
streams (with distinct registered names) reaches a state where every
registered stream has at least one buffered message — equivalently,
once the call sequence has covered every registered stream — every
subsequent `newMsg` call for a registered stream pushes exactly one
more bundle: emission becomes one-per-message because no buffer is
ever emptied. -/
theorem noSync_c9_saturated (streams : List String) (calls : List Call)
    (name : String) (msg : Msg) (hnd : streams.Nodup)
    (hreg : ∀ c ∈ calls, c.1 ∈ streams)
    (hcov : ∀ st ∈ streams, st ∈ calls.map Prod.fst)
    (hname : name ∈ streams) :
    ∃ s s2, runSeq streams calls = some s ∧
      (∀ st ∈ streams, lookupKey s.msgs st ≠ none) ∧
      newMsg s name msg = some s2 ∧
      ∃ b, s2.queue = s.queue ++ [b] := by
  obtain ⟨s, hs, hgr⟩ := goodRun_runSeq streams calls hreg
  have hsent : ∀ st ∈ streams, sentTo calls st ≠ [] := by
    intro st hst
    rw [ne_eq, sentTo_eq_nil_iff]
    exact not_not_intro (hcov st hst)
  have hbuf : ∀ st ∈ streams, lookupKey s.msgs st ≠ none := by
    intro st hst
    rw [hgr.hlookup st, if_neg (hsent st hst)]
    simp
  obtain ⟨s2, hnm, _, _, hemit⟩ :=
    newMsg_goodRun streams calls s name msg hgr hname hreg
  have hsub : ∀ st ∈ streams, st = name ∨ st ∈ keys s.msgs := by
    intro st hst
    right
    have hl := hgr.hlookup st
    rw [if_neg (hsent st hst)] at hl
    exact mem_keys_of_lookup_some s.msgs st _ hl
  obtain ⟨b, hbq⟩ := hemit hnd hsub
  exact ⟨s, s2, hs, hbuf, hnm, b, hbq⟩

/-- Witness for claim C9 at a concrete input. -/
theorem noSync_c9_witness :
    ∃ s s2, runSeq ["a", "b"] [("a", 1), ("b", 2)] = some s ∧
      (∀ st ∈ ["a", "b"], lookupKey s.msgs st ≠ none) ∧
      newMsg s "a" 7 = some s2 ∧
      ∃ b, s2.queue = s.queue ++ [b] :=
  noSync_c9_saturated ["a", "b"] [("a", 1), ("b", 2)] "a" 7 (by decide)
    (by decide) (by decide) (by decide)

theorem qrun_inv (ops : List QOp) (s t : QState) (h : qrun s ops = some t)
    (hcap : s.q.length ≤ queueCapacity) :
    t.delivered ++ t.q = s.delivered ++ s.q ++ pushedOf ops ∧
      t.q.length ≤ queueCapacity := by
  induction ops generalizing s with
  | nil =>
    simp only [qrun] at h
    injection h with h2
    subst h2
    exact ⟨by simp [pushedOf], hcap⟩
  | cons op rest ih =>
    simp only [qrun] at h
    cases op with
    | push b =>
      simp only [qstep] at h
      by_cases hfull : s.q.length < queueCapacity
      · rw [if_pos hfull, Option.some_bind] at h
        have hrec := ih ⟨s.q ++ [b], s.delivered⟩ h
          (by simp [List.length_append]; omega)
        refine ⟨?_, hrec.2⟩
        rw [hrec.1]
        simp [pushedOf, List.append_assoc]
      · rw [if_neg hfull] at h
        cases h
    | poll =>
      rcases s with ⟨q, dlv⟩
      cases q with
      | nil =>
        simp only [qstep, Option.some_bind] at h
        have hrec := ih ⟨[], dlv⟩ h hcap
        refine ⟨?_, hrec.2⟩
        rw [hrec.1]
        simp [pushedOf]
      | cons bq restq =>
        simp only [qstep, Option.some_bind] at h
        have hrec := ih ⟨restq, dlv ++ [bq]⟩ h
          (le_trans (Nat.le_succ _) hcap)
        refine ⟨?_, hrec.2⟩
        rw [hrec.1]
        simp [pushedOf, List.append_assoc]

/-- Claim C7 (confirmed).  The delivery queue is a bounded FIFO: for
every interleaving of producer pushes and consumer polls that runs to
completion from an empty queue (a push onto a full queue blocks, which
the model records as no completed run), the bundles delivered to the
callback followed by the bundles still pending equal the pushed bundles
in push order — so bundles are never reordered — and the queue never
holds more than its capacity of 30 bundles. -/
theorem deliveryQueue_fifo (ops : List QOp) (t : QState)
    (h : qrun ⟨[], []⟩ ops = some t) :
    t.delivered ++ t.q = pushedOf ops ∧ t.q.length ≤ queueCapacity := by
  have hinv := qrun_inv ops ⟨[], []⟩ t h (by simp [queueCapacity])
  simpa using hinv

/-- Witness for claim C7 at a concrete input. -/
theorem deliveryQueue_fifo_witness :
    (QState.mk [[("b", 2)]] [[("a", 1)]]).delivered ++
        (QState.mk [[("b", 2)]] [[("a", 1)]]).q =
      pushedOf [QOp.push [("a", 1)], QOp.push [("b", 2)], QOp.poll] ∧
      (QState.mk [[("b", 2)]] [[("a", 1)]]).q.length ≤ queueCapacity :=
  deliveryQueue_fifo [QOp.push [("a", 1)], QOp.push [("b", 2)], QOp.poll]
    (QState.mk [[("b", 2)]] [[("a", 1)]]) (by decide)

/-- Claim C8 (confirmed).  Polling an empty delivery queue with the
non-blocking `checkQueue` (default `block=False`) is a defined no-op:
the `Empty` exception is caught, the callback is not invoked, and the
whole synchronizer state is unchanged, for any number of repeated
polls. -/
theorem checkQueue_empty_noop (s : SyncState) (h : s.queue = []) :
    ∀ n, checkQueueN n s = (s, []) := by
  intro n
  induction n with
  | zero => rfl
  | succ n ih =>
    have hc : checkQueue s = (s, none) := by
      rcases s with ⟨st, ms, q⟩
      simp only at h
      subst h
      rfl
    simp [checkQueueN, hc, ih]

/-- Witness for claim C8 at a concrete input. -/
theorem checkQueue_empty_noop_witness :
    (initState ["a"]).queue = [] ∧
      checkQueueN 5 (initState ["a"]) = (initState ["a"], []) :=
  ⟨rfl, checkQueue_empty_noop (initState ["a"]) rfl 5⟩

/-- Claim C10 (confirmed, implicit claim).  Each `checkQueue` poll
removes at most one bundle from the delivery queue and invokes the
callback at most once: `n` polls deliver exactly the first
`min n (queue length)` bundles, in order, and leave the rest queued —
so draining `N` queued bundles requires `N` polls. -/
theorem checkQueue_drain_take (s : SyncState) (n : Nat) :
    checkQueueN n s = ({ s with queue := s.queue.drop n }, s.queue.take n) := by
  induction n generalizing s with
  | zero =>
    rcases s with ⟨st, ms, q⟩
    simp [checkQueueN]
  | succ n ih =>
    rcases s with ⟨st, ms, q⟩
    cases q with
    | nil =>
      have hc : checkQueue ⟨st, ms, []⟩ = (⟨st, ms, []⟩, none) := rfl
      simp [checkQueueN, hc, ih]
    | cons b rest =>
      have hc : checkQueue ⟨st, ms, b :: rest⟩ = (⟨st, ms, rest⟩, some b) := rfl
      simp [checkQueueN, hc, ih]

/-- Claim C6, amended (confirmed).  After construction the message dict
has no entries at all (in particular every lookup fails), and the
delivery queue is empty; per-stream slots are created lazily by the
first `newMsg` for that name. -/
theorem noSync_c6_init_empty (streams : List String) :
    (initState streams).msgs = [] ∧
    (initState streams).queue = [] ∧
    ∀ st : String, lookupKey (initState streams).msgs st = none := by
  exact ⟨rfl, rfl, fun _ => rfl⟩

end Syncing
